import Mathlib

/-!
Verification of the errgo-ts deferred-cleanup engine.

The repository ships two sibling implementations of the same design:
`src/defer.ts` (entry points `defer.safe`, `defer.throwing`, `defer.handled`,
draining the queue with an index-based `for` loop) and `src/with-defer.ts`
(entry points `withDefer` and `withDefer.handled`, both routed through
`_withDeferImpl`, draining with a shift-based `while` loop).  This file gives
a shallow embedding of both implementations, of the error normalizer
`ensureError` from `src/utils.ts`, and of the observable traces (callback
invocations, `console.warn` diagnostics, `onError` handler calls) that the
specification's claims quantify over.

JavaScript is single threaded; an invocation of an engine entry point runs
the user action, which registers cleanup callbacks via the `defer` handle,
settles (returns a value, throws, or returns a promise that later fulfills
or rejects), after which the queue is drained and the final result is
delivered.  The embedding represents an action by the data the engine can
observe of it: the callbacks it registers, in order, and how it settles.
A run is represented by the ordered trace of events emitted before the
engine delivers its result, the diagnostics attached to still-pending
cleanup results, the cleanup rejections nobody observes, and the delivered
result itself.
-/

namespace ErrGo

/-- A JavaScript value, as far as the library inspects one: `null`,
`undefined`, primitives, `Error` objects (message plus optional `cause`),
plain acyclic objects, and `objCircular`, standing for an object with a
circular reference (on which `JSON.stringify` throws). -/
inductive JSVal : Type where
  | null : JSVal
  | undefined : JSVal
  | bool (b : Bool) : JSVal
  | num (n : Int) : JSVal
  | str (s : String) : JSVal
  | error (msg : String) (cause : Option JSVal) : JSVal
  | obj (fields : List (String × JSVal)) : JSVal
  | objCircular : JSVal

/-- Whether `e instanceof Error` holds, for the embedded value universe. -/
def isErrorObj : JSVal → Bool
  | .error _ _ => true
  | _ => false

/-- JavaScript `String(e)` on the embedded universe. -/
def stringOf : JSVal → String
  | .null => "null"
  | .undefined => "undefined"
  | .bool b => if b then "true" else "false"
  | .num n => toString n
  | .str s => s
  | .error msg _ => "Error: " ++ msg
  | .obj _ => "[object Object]"
  | .objCircular => "[object Object]"

mutual

/-- Embedding of `JSON.stringify(e)`: `none` models the serializer throwing, which it
does exactly when the value contains a circular reference. -/
def jsonStringify : JSVal → Option String
  | .null => some "null"
  | .undefined => some "undefined"
  | .bool b => some (if b then "true" else "false")
  | .num n => some (toString n)
  | .str s => some ("\"" ++ s ++ "\"")
  | .error _ _ => some "\x7b\x7d"
  | .obj fields => do
      let body ← jsonStringifyFields fields
      pure ("\x7b" ++ body ++ "\x7d")
  | .objCircular => none

/-- Serialize the fields of a plain object, propagating failure from any
nested circular value. -/
def jsonStringifyFields : List (String × JSVal) → Option String
  | [] => some ""
  | (k, v) :: rest => do
      let sv ← jsonStringify v
      let srest ← jsonStringifyFields rest
      pure ("\"" ++ k ++ "\":" ++ sv ++ (if rest.isEmpty then "" else ",") ++ srest)

end

/-- Embedding of `ensureError` from `src/utils.ts`: return `Error` instances
unchanged; otherwise build the descriptive string (`"null"` for `null`,
`JSON.stringify` for objects with a `String(e)` fallback when it throws,
`String(e)` for everything else) and wrap it in a new `Error` whose `cause`
is the original value. -/
def ensureError (e : JSVal) : JSVal :=
  if isErrorObj e then
    e
  else
    let eString :=
      match e with
      | .null => "null"
      | .obj _ | .objCircular | .error _ _ =>
          match jsonStringify e with
          | some s => s
          | none => stringOf e
      | _ => stringOf e
    JSVal.error ("Non-Error object was thrown: " ++ eString) (some e)

/-- Modelled from the spec: `handleUnknown`, the normalizer imported by
`src/with-defer.ts` from a utils module whose source is not in the
repository snapshot.  Per the spec's collaborator contract
`normalize(unknown) -> Error`, it is total, returns an error object
unchanged, and otherwise synthesizes a descriptive error retaining the
original value as its cause. -/
def handleUnknown (e : JSVal) : JSVal :=
  if isErrorObj e then e
  else JSVal.error ("Non-Error object was thrown: " ++ stringOf e) (some e)

/-- Modelled from the spec: `wrapError`, imported by `src/with-defer.ts`
from the same missing utils module, used to build the cleanup-failure
diagnostics.  Per the spec, a diagnostic is "a structured warning including
a fixed descriptive prefix and the causing error": an error with the fixed
message and the normalized original failure as its cause. -/
def wrapError (msg : String) (e : JSVal) : JSVal :=
  JSVal.error msg (some (handleUnknown e))

/-- How a cleanup callback behaves when invoked: return normally, throw
synchronously, or return a promise that later fulfills or rejects. -/
inductive CbRes : Type where
  | ok : CbRes
  | throws (e : JSVal) : CbRes
  | pendingOk : CbRes
  | pendingFail (e : JSVal) : CbRes

/-- A cleanup callback, as the engine observes it: an identifier (so traces
can name it), the further callbacks it registers through the same `defer`
handle while it runs, and how it finishes. -/
inductive Callback : Type where
  | mk (id : Nat) (regs : List Callback) (res : CbRes) : Callback

def Callback.id : Callback → Nat
  | .mk i _ _ => i

def Callback.regs : Callback → List Callback
  | .mk _ r _ => r

def Callback.res : Callback → CbRes
  | .mk _ _ r => r

@[simp] theorem Callback.id_mk (i : Nat) (regs : List Callback) (res : CbRes) :
    (Callback.mk i regs res).id = i := rfl

@[simp] theorem Callback.regs_mk (i : Nat) (regs : List Callback) (res : CbRes) :
    (Callback.mk i regs res).regs = regs := rfl

@[simp] theorem Callback.res_mk (i : Nat) (regs : List Callback) (res : CbRes) :
    (Callback.mk i regs res).res = res := rfl

mutual

/-- Size of a callback: itself plus everything it (transitively) registers. -/
def cbSize : Callback → Nat
  | .mk _ regs _ => 1 + cbsSize regs

/-- Total size of a list of callbacks. -/
def cbsSize : List Callback → Nat
  | [] => 0
  | c :: cs => cbSize c + cbsSize cs

end

theorem cbsSize_append (xs ys : List Callback) :
    cbsSize (xs ++ ys) = cbsSize xs + cbsSize ys := by
  induction xs with
  | nil => simp [cbsSize]
  | cons c cs ih =>
    simp only [List.cons_append, cbsSize, List.append_eq, ih]
    omega

/-- Every callback identifier occurring in a queue, syntactically:
for each entry its own id first, then the ids it registers, then the rest
of the queue. -/
def allIds : List Callback → List Nat
  | [] => []
  | .mk i regs _ :: rest => i :: (allIds regs ++ allIds rest)

/-- The sequence of callback ids a drain of this queue invokes: the head is
invoked first, and the callbacks it registers are appended at the tail of
the queue. -/
def drainOrder : List Callback → List Nat
  | [] => []
  | .mk i regs _ :: rest => i :: drainOrder (rest ++ regs)
  termination_by q => cbsSize q
  decreasing_by
    simp only [cbsSize, cbSize, cbsSize_append, List.append_eq]
    omega

/-- An observable event of one engine invocation, in emission order. -/
inductive Event : Type where
  | register (id : Nat) : Event
  | settle : Event
  | invoke (id : Nat) : Event
  | warnPair (msg : String) (e : JSVal) : Event
  | warnErr (e : JSVal) : Event
  | handler (e : JSVal) : Event

/-- What a drain of the queue produces: the synchronous event trace, the
diagnostics attached to pending cleanup results (emitted later if those
reject), the cleanup rejections left entirely unobserved, and the queue as
the drain leaves it. -/
structure DrainOut : Type where
  events : List Event
  asyncWarns : List JSVal
  unhandled : List JSVal
  finalQueue : List Callback

/-- Embedding of `executeDefers` from `src/defer.ts`:
`for (let i = 0; i < queue.length; i++) try { queue[i](); } catch (e) { console.warn("Error in deferred callback:", e); }`.
The loop re-reads `queue.length` each iteration, so callbacks pushed during
the drain are seen; nothing is ever removed from the array.  Invoking
`queue[i]` appends its registrations, a synchronous throw is caught and
warned about with the fixed two-argument `console.warn`, and a returned
promise is ignored entirely — a later rejection of it is unobserved. -/
def indexDrain (queue : List Callback) (i : Nat) : DrainOut :=
  if h : i < queue.length then
    let c := queue[i]
    let rest := indexDrain (queue ++ c.regs) (i + 1)
    { events := Event.invoke c.id :: ((c.regs.map fun d => Event.register d.id) ++
        (match c.res with
          | .throws e => [Event.warnPair "Error in deferred callback:" e]
          | _ => []) ++ rest.events)
      asyncWarns := rest.asyncWarns
      unhandled := (match c.res with
          | .pendingFail e => [e]
          | _ => []) ++ rest.unhandled
      finalQueue := rest.finalQueue }
  else
    { events := [], asyncWarns := [], unhandled := [], finalQueue := queue }
  termination_by cbsSize (queue.drop i)
  decreasing_by
    rw [List.drop_append_of_le_length (by omega),
      List.drop_eq_getElem_cons h, cbsSize_append]
    cases hq : queue[i] with
    | mk j regs res =>
      simp only [cbsSize, cbSize, hq, Callback.regs]
      omega

/-- Embedding of `executeDefers` from `src/with-defer.ts`:
`while (queue.length > 0) { try { const a = queue.shift(); const r = a?.(); if (r instanceof Promise) r.catch(e => console.warn(wrapError("Error in async deferred callback", e))); } catch (e) { console.warn(wrapError("Error in deferred callback", e)); } }`.
Each callback is shifted off the front before being invoked; its
registrations are pushed to the back; a synchronous throw is warned about
immediately, and a returned promise gets a rejection continuation that
warns later without blocking the loop. -/
def shiftDrain (queue : List Callback) : DrainOut :=
  match queue with
  | [] => { events := [], asyncWarns := [], unhandled := [], finalQueue := [] }
  | .mk j regs res :: rest =>
    let restOut := shiftDrain (rest ++ regs)
    { events := Event.invoke j :: ((regs.map fun d => Event.register d.id) ++
        (match res with
          | .throws e => [Event.warnErr (wrapError "Error in deferred callback" e)]
          | _ => []) ++ restOut.events)
      asyncWarns := (match res with
          | .pendingFail e => [wrapError "Error in async deferred callback" e]
          | _ => []) ++ restOut.asyncWarns
      unhandled := restOut.unhandled
      finalQueue := restOut.finalQueue }
  termination_by cbsSize queue
  decreasing_by
    simp only [cbsSize, cbSize, cbsSize_append, List.append_eq]
    omega

/-- How the user action settles, as the engine observes it through
`const res = action(defer)` and the `res instanceof Promise` test:
return a plain value, throw synchronously, or return a promise that later
fulfills or rejects. -/
inductive ActOut (V : Type) : Type where
  | ret (v : V) : ActOut V
  | throw (e : JSVal) : ActOut V
  | resolve (v : V) : ActOut V
  | reject (e : JSVal) : ActOut V

/-- A user action, as the engine observes it: the callbacks it registers
through the `defer` handle, in registration order, before it settles, and
how it settles.  All registrations precede the drain in every code path of
both implementations, because the drain only runs after the action has
settled. -/
structure ActionSpec (V : Type) : Type where
  regs : List Callback
  out : ActOut V

/-- How an engine entry point delivers its final result to the caller:
return it synchronously, throw it synchronously, or return a promise that
fulfills or rejects with it. -/
inductive Delivery (R : Type) : Type where
  | value (r : R) : Delivery R
  | thrown (e : JSVal) : Delivery R
  | fulfilled (r : R) : Delivery R
  | rejected (e : JSVal) : Delivery R

/-- One invocation of an engine entry point: the ordered trace of events
emitted before the result is delivered, the diagnostics attached to pending
cleanup results, the unobserved cleanup rejections, and the delivered
result. -/
structure Run (R : Type) : Type where
  events : List Event
  asyncWarns : List JSVal
  unhandled : List JSVal
  result : Delivery R

/-- The registration events the action emits while running. -/
def regEvents {V : Type} (a : ActionSpec V) : List Event :=
  a.regs.map fun c => Event.register c.id

/-- The `Result` object of `src/types.ts`: a discriminated union holding
either the value (with the error slot absent) or the error (with the value
slot absent). -/
inductive JSResult (V : Type) : Type where
  | val (v : V) : JSResult V
  | err (e : JSVal) : JSResult V

/-- The `ValErr` tuple of the sibling implementation's types: `[v, null]`
on success or `[null, error]` on failure. -/
inductive ValErr (V : Type) : Type where
  | val (v : V) : ValErr V
  | err (e : JSVal) : ValErr V

/-- Embedding of `safe` from `src/defer.ts`: run the action; on a
synchronous value, drain then return `{ val }`; on a synchronous throw,
drain then return `{ err: ensureError(e) }`; on a returned promise, attach
continuations that drain and then fulfill the returned promise with
`{ val }` or `{ err: ensureError(e) }`. -/
def safe {V : Type} (a : ActionSpec V) : Run (JSResult V) :=
  let d := indexDrain a.regs 0
  match a.out with
  | .ret v =>
    { events := regEvents a ++ Event.settle :: d.events, asyncWarns := d.asyncWarns,
      unhandled := d.unhandled, result := .value (.val v) }
  | .throw e =>
    { events := regEvents a ++ Event.settle :: d.events, asyncWarns := d.asyncWarns,
      unhandled := d.unhandled, result := .value (.err (ensureError e)) }
  | .resolve v =>
    { events := regEvents a ++ Event.settle :: d.events, asyncWarns := d.asyncWarns,
      unhandled := d.unhandled, result := .fulfilled (.val v) }
  | .reject e =>
    { events := regEvents a ++ Event.settle :: d.events, asyncWarns := d.asyncWarns,
      unhandled := d.unhandled, result := .fulfilled (.err (ensureError e)) }

/-- Embedding of `throwing` from `src/defer.ts`: on a synchronous value,
drain then return it; on a synchronous throw, drain then
`throw ensureError(e)`; on a returned promise, drain after it settles and
then forward the value, or re-throw `ensureError(e)` inside the rejection
continuation so the returned promise rejects with it. -/
def throwing {V : Type} (a : ActionSpec V) : Run V :=
  let d := indexDrain a.regs 0
  match a.out with
  | .ret v =>
    { events := regEvents a ++ Event.settle :: d.events, asyncWarns := d.asyncWarns,
      unhandled := d.unhandled, result := .value v }
  | .throw e =>
    { events := regEvents a ++ Event.settle :: d.events, asyncWarns := d.asyncWarns,
      unhandled := d.unhandled, result := .thrown (ensureError e) }
  | .resolve v =>
    { events := regEvents a ++ Event.settle :: d.events, asyncWarns := d.asyncWarns,
      unhandled := d.unhandled, result := .fulfilled v }
  | .reject e =>
    { events := regEvents a ++ Event.settle :: d.events, asyncWarns := d.asyncWarns,
      unhandled := d.unhandled, result := .rejected (ensureError e) }

/-- Embedding of `handled` from `src/defer.ts`: on a synchronous value,
drain and return nothing; on a synchronous throw, drain then call
`onError(ensureError(e))` and return nothing; on a returned promise, after
it settles drain, call `onError(ensureError(e))` only on rejection, and
fulfill the returned promise with nothing either way.  Handler calls are
recorded as `Event.handler` entries in the trace. -/
def handled {V : Type} (a : ActionSpec V) : Run Unit :=
  let d := indexDrain a.regs 0
  match a.out with
  | .ret _ =>
    { events := regEvents a ++ Event.settle :: d.events, asyncWarns := d.asyncWarns,
      unhandled := d.unhandled, result := .value () }
  | .throw e =>
    { events := regEvents a ++ Event.settle :: (d.events ++ [Event.handler (ensureError e)]),
      asyncWarns := d.asyncWarns, unhandled := d.unhandled, result := .value () }
  | .resolve _ =>
    { events := regEvents a ++ Event.settle :: d.events, asyncWarns := d.asyncWarns,
      unhandled := d.unhandled, result := .fulfilled () }
  | .reject e =>
    { events := regEvents a ++ Event.settle :: (d.events ++ [Event.handler (ensureError e)]),
      asyncWarns := d.asyncWarns, unhandled := d.unhandled, result := .fulfilled () }

/-- Embedding of `_withDeferImpl` from `src/with-defer.ts`.  `hasHandler`
is whether an `onError` was supplied (the `withDefer.handled` mode).  With
a handler: success paths drain and return/fulfill nothing; failure paths
normalize with `handleUnknown`, drain, call the handler, and return/fulfill
nothing.  Without a handler: drain then return/fulfill `[v, null]` on
success and `[null, handleUnknown(e)]` on failure.  The queue is drained
with the shift-based loop.  The result is `none` when the implementation
returns nothing (handler mode). -/
def withDeferImpl {V : Type} (hasHandler : Bool) (a : ActionSpec V) :
    Run (Option (ValErr V)) :=
  let d := shiftDrain a.regs
  if hasHandler then
    match a.out with
    | .ret _ =>
      { events := regEvents a ++ Event.settle :: d.events, asyncWarns := d.asyncWarns,
        unhandled := d.unhandled, result := .value none }
    | .throw e =>
      { events := regEvents a ++ Event.settle :: (d.events ++ [Event.handler (handleUnknown e)]),
        asyncWarns := d.asyncWarns, unhandled := d.unhandled, result := .value none }
    | .resolve _ =>
      { events := regEvents a ++ Event.settle :: d.events, asyncWarns := d.asyncWarns,
        unhandled := d.unhandled, result := .fulfilled none }
    | .reject e =>
      { events := regEvents a ++ Event.settle :: (d.events ++ [Event.handler (handleUnknown e)]),
        asyncWarns := d.asyncWarns, unhandled := d.unhandled, result := .fulfilled none }
  else
    match a.out with
    | .ret v =>
      { events := regEvents a ++ Event.settle :: d.events, asyncWarns := d.asyncWarns,
        unhandled := d.unhandled, result := .value (some (.val v)) }
    | .throw e =>
      { events := regEvents a ++ Event.settle :: d.events, asyncWarns := d.asyncWarns,
        unhandled := d.unhandled, result := .value (some (.err (handleUnknown e))) }
    | .resolve v =>
      { events := regEvents a ++ Event.settle :: d.events, asyncWarns := d.asyncWarns,
        unhandled := d.unhandled, result := .fulfilled (some (.val v)) }
    | .reject e =>
      { events := regEvents a ++ Event.settle :: d.events, asyncWarns := d.asyncWarns,
        unhandled := d.unhandled, result := .fulfilled (some (.err (handleUnknown e))) }

/-- Embedding of `withDefer` from `src/with-defer.ts`: `_withDeferImpl`
without a handler. -/
def withDefer {V : Type} (a : ActionSpec V) : Run (Option (ValErr V)) :=
  withDeferImpl false a

/-- Embedding of `withDefer.handled` from `src/with-defer.ts`:
`_withDeferImpl` with the supplied handler. -/
def withDeferHandled {V : Type} (a : ActionSpec V) : Run (Option (ValErr V)) :=
  withDeferImpl true a

/-- The callback ids invoked during a trace, in order. -/
def invokeSeq (events : List Event) : List Nat :=
  events.filterMap fun ev =>
    match ev with
    | .invoke i => some i
    | _ => none

/-- The errors an `onError` handler was called with during a trace, in
order. -/
def handlerSeq (events : List Event) : List JSVal :=
  events.filterMap fun ev =>
    match ev with
    | .handler e => some e
    | _ => none

theorem allIds_append (xs ys : List Callback) :
    allIds (xs ++ ys) = allIds xs ++ allIds ys := by
  induction xs with
  | nil => simp [allIds]
  | cons c cs ih =>
    cases c with
    | mk i regs res => simp [allIds, ih]

theorem drainOrder_perm_allIds : ∀ q : List Callback, (drainOrder q).Perm (allIds q)
  | [] => by simp [drainOrder, allIds]
  | .mk i regs res :: rest => by
    have ih := drainOrder_perm_allIds (rest ++ regs)
    rw [allIds_append] at ih
    have hcomm : (allIds rest ++ allIds regs).Perm (allIds regs ++ allIds rest) :=
      List.perm_append_comm
    simpa [drainOrder, allIds] using (ih.trans hcomm).cons i
  termination_by q => cbsSize q
  decreasing_by
    simp only [cbsSize, cbSize, cbsSize_append, List.append_eq]
    omega

theorem mem_allIds_of_mem {c : Callback} {q : List Callback} (h : c ∈ q) :
    c.id ∈ allIds q := by
  induction q with
  | nil => cases h
  | cons d rest ih =>
    cases d with
    | mk i regs res =>
      rcases List.mem_cons.mp h with rfl | h2
      · simp [allIds, Callback.id]
      · simp [allIds, ih h2]

theorem mem_allIds_of_mem_regs {c d : Callback} {q : List Callback}
    (hc : c ∈ q) (hd : d ∈ c.regs) : d.id ∈ allIds q := by
  induction q with
  | nil => cases hc
  | cons b rest ih =>
    cases b with
    | mk i regs res =>
      rcases List.mem_cons.mp hc with rfl | h2
      · simp only [Callback.regs] at hd
        simp [allIds, mem_allIds_of_mem hd]
      · simp [allIds, ih h2]

@[simp] theorem invokeSeq_nil : invokeSeq [] = [] := rfl

@[simp] theorem invokeSeq_cons_invoke (i : Nat) (evs : List Event) :
    invokeSeq (Event.invoke i :: evs) = i :: invokeSeq evs := rfl

@[simp] theorem invokeSeq_cons_register (i : Nat) (evs : List Event) :
    invokeSeq (Event.register i :: evs) = invokeSeq evs := rfl

@[simp] theorem invokeSeq_cons_settle (evs : List Event) :
    invokeSeq (Event.settle :: evs) = invokeSeq evs := rfl

@[simp] theorem invokeSeq_cons_warnPair (msg : String) (e : JSVal) (evs : List Event) :
    invokeSeq (Event.warnPair msg e :: evs) = invokeSeq evs := rfl

@[simp] theorem invokeSeq_cons_warnErr (e : JSVal) (evs : List Event) :
    invokeSeq (Event.warnErr e :: evs) = invokeSeq evs := rfl

@[simp] theorem invokeSeq_cons_handler (e : JSVal) (evs : List Event) :
    invokeSeq (Event.handler e :: evs) = invokeSeq evs := rfl

@[simp] theorem handlerSeq_nil : handlerSeq [] = [] := rfl

@[simp] theorem handlerSeq_cons_invoke (i : Nat) (evs : List Event) :
    handlerSeq (Event.invoke i :: evs) = handlerSeq evs := rfl

@[simp] theorem handlerSeq_cons_register (i : Nat) (evs : List Event) :
    handlerSeq (Event.register i :: evs) = handlerSeq evs := rfl

@[simp] theorem handlerSeq_cons_settle (evs : List Event) :
    handlerSeq (Event.settle :: evs) = handlerSeq evs := rfl

@[simp] theorem handlerSeq_cons_warnPair (msg : String) (e : JSVal) (evs : List Event) :
    handlerSeq (Event.warnPair msg e :: evs) = handlerSeq evs := rfl

@[simp] theorem handlerSeq_cons_warnErr (e : JSVal) (evs : List Event) :
    handlerSeq (Event.warnErr e :: evs) = handlerSeq evs := rfl

@[simp] theorem handlerSeq_cons_handler (e : JSVal) (evs : List Event) :
    handlerSeq (Event.handler e :: evs) = e :: handlerSeq evs := rfl

@[simp] theorem invokeSeq_append (xs ys : List Event) :
    invokeSeq (xs ++ ys) = invokeSeq xs ++ invokeSeq ys :=
  List.filterMap_append xs ys _

@[simp] theorem handlerSeq_append (xs ys : List Event) :
    handlerSeq (xs ++ ys) = handlerSeq xs ++ handlerSeq ys :=
  List.filterMap_append xs ys _

@[simp] theorem invokeSeq_regEvents {V : Type} (a : ActionSpec V) :
    invokeSeq (regEvents a) = [] := by
  simp [invokeSeq, regEvents, List.filterMap_map, Function.comp]

@[simp] theorem handlerSeq_regEvents {V : Type} (a : ActionSpec V) :
    handlerSeq (regEvents a) = [] := by
  simp [handlerSeq, regEvents, List.filterMap_map, Function.comp]

@[simp] theorem invokeSeq_registerMap (cs : List Callback) :
    invokeSeq (cs.map fun d => Event.register d.id) = [] := by
  simp [invokeSeq, List.filterMap_map, Function.comp]

@[simp] theorem handlerSeq_registerMap (cs : List Callback) :
    handlerSeq (cs.map fun d => Event.register d.id) = [] := by
  simp [handlerSeq, List.filterMap_map, Function.comp]

theorem indexDrain_invokeSeq : ∀ (queue : List Callback) (i : Nat),
    invokeSeq (indexDrain queue i).events = drainOrder (queue.drop i)
  | queue, i => by
    rw [indexDrain]
    by_cases h : i < queue.length
    · have ih := indexDrain_invokeSeq (queue ++ queue[i].regs) (i + 1)
      rw [List.drop_append_of_le_length (by omega)] at ih
      rw [List.drop_eq_getElem_cons h]
      cases hq : queue[i] with
      | mk j regs res =>
        rw [hq] at ih
        simp only [Callback.regs] at ih
        simp only [dif_pos h, hq, drainOrder, Callback.id, Callback.regs, Callback.res,
          invokeSeq, List.filterMap_cons, List.filterMap_append]
        simp only [invokeSeq, List.filterMap_append] at ih
        rw [ih]
        cases res <;> simp [List.filterMap_map, Function.comp, invokeSeq, List.filterMap_cons]
    · rw [dif_neg h]
      rw [List.drop_eq_nil_of_le (by omega)]
      simp [invokeSeq, drainOrder]
  termination_by queue i => cbsSize (queue.drop i)
  decreasing_by
    rw [List.drop_append_of_le_length (by omega),
      List.drop_eq_getElem_cons h, cbsSize_append]
    cases hq : queue[i] with
    | mk j regs res =>
      simp only [cbsSize, cbSize, hq, Callback.regs]
      omega

theorem shiftDrain_invokeSeq : ∀ queue : List Callback,
    invokeSeq (shiftDrain queue).events = drainOrder queue
  | [] => by simp [shiftDrain, drainOrder]
  | .mk j regs res :: rest => by
    have ih := shiftDrain_invokeSeq (rest ++ regs)
    cases res <;> simp [shiftDrain, drainOrder, ih]
  termination_by q => cbsSize q
  decreasing_by
    simp only [cbsSize, cbSize, cbsSize_append, List.append_eq]
    omega

theorem indexDrain_handlerSeq : ∀ (queue : List Callback) (i : Nat),
    handlerSeq (indexDrain queue i).events = []
  | queue, i => by
    rw [indexDrain]
    by_cases h : i < queue.length
    · have ih := indexDrain_handlerSeq (queue ++ queue[i].regs) (i + 1)
      cases hq : queue[i] with
      | mk j regs res =>
        rw [hq] at ih
        simp only [Callback.regs_mk] at ih
        rw [dif_pos h]
        simp only [hq]
        cases res <;> simp [ih]
    · rw [dif_neg h]
      rfl
  termination_by queue i => cbsSize (queue.drop i)
  decreasing_by
    rw [List.drop_append_of_le_length (by omega),
      List.drop_eq_getElem_cons h, cbsSize_append]
    cases hq : queue[i] with
    | mk j regs res =>
      simp only [cbsSize, cbSize, hq, Callback.regs]
      omega

theorem shiftDrain_handlerSeq : ∀ queue : List Callback,
    handlerSeq (shiftDrain queue).events = []
  | [] => by simp [shiftDrain]
  | .mk j regs res :: rest => by
    have ih := shiftDrain_handlerSeq (rest ++ regs)
    cases res <;> simp [shiftDrain, ih]
  termination_by q => cbsSize q
  decreasing_by
    simp only [cbsSize, cbSize, cbsSize_append, List.append_eq]
    omega

theorem indexDrain_asyncWarns : ∀ (queue : List Callback) (i : Nat),
    (indexDrain queue i).asyncWarns = []
  | queue, i => by
    rw [indexDrain]
    by_cases h : i < queue.length
    · have ih := indexDrain_asyncWarns (queue ++ queue[i].regs) (i + 1)
      rw [dif_pos h]
      simpa using ih
    · rw [dif_neg h]
  termination_by queue i => cbsSize (queue.drop i)
  decreasing_by
    rw [List.drop_append_of_le_length (by omega),
      List.drop_eq_getElem_cons h, cbsSize_append]
    cases hq : queue[i] with
    | mk j regs res =>
      simp only [cbsSize, cbSize, hq, Callback.regs]
      omega

theorem shiftDrain_finalQueue : ∀ queue : List Callback,
    (shiftDrain queue).finalQueue = []
  | [] => by simp [shiftDrain]
  | .mk j regs res :: rest => by
    have ih := shiftDrain_finalQueue (rest ++ regs)
    cases res <;> simp [shiftDrain, ih]
  termination_by q => cbsSize q
  decreasing_by
    simp only [cbsSize, cbSize, cbsSize_append, List.append_eq]
    omega

theorem indexDrain_finalQueue_extends : ∀ (queue : List Callback) (i : Nat),
    ∃ ext : List Callback, (indexDrain queue i).finalQueue = queue ++ ext
  | queue, i => by
    rw [indexDrain]
    by_cases h : i < queue.length
    · obtain ⟨ext, hext⟩ := indexDrain_finalQueue_extends (queue ++ queue[i].regs) (i + 1)
      rw [dif_pos h]
      exact ⟨queue[i].regs ++ ext, by simpa using hext⟩
    · rw [dif_neg h]
      exact ⟨[], by simp⟩
  termination_by queue i => cbsSize (queue.drop i)
  decreasing_by
    rw [List.drop_append_of_le_length (by omega),
      List.drop_eq_getElem_cons h, cbsSize_append]
    cases hq : queue[i] with
    | mk j regs res =>
      simp only [cbsSize, cbSize, hq, Callback.regs]
      omega

theorem drainOrder_flat (q : List Callback) (hflat : ∀ c ∈ q, c.regs = []) :
    drainOrder q = q.map Callback.id := by
  induction q with
  | nil => simp [drainOrder]
  | cons c rest ih =>
    cases c with
    | mk j regs res =>
      have hr : regs = [] := by
        have := hflat (.mk j regs res) (List.mem_cons_self _ _)
        simpa [Callback.regs] using this
      subst hr
      rw [drainOrder]
      simp only [List.append_nil]
      rw [ih fun c hc => hflat c (List.mem_cons_of_mem _ hc)]
      simp [Callback.id]

theorem shiftDrain_asyncWarn_of_pendingFail :
    ∀ (queue : List Callback) (c : Callback) (e : JSVal), c ∈ queue →
    c.res = CbRes.pendingFail e →
    wrapError "Error in async deferred callback" e ∈ (shiftDrain queue).asyncWarns
  | [], c, e, hc, _ => by cases hc
  | .mk j regs res :: rest, c, e, hc, hres => by
    rcases List.mem_cons.mp hc with rfl | h2
    · simp only [Callback.res] at hres
      subst hres
      simp [shiftDrain]
    · have ih := shiftDrain_asyncWarn_of_pendingFail (rest ++ regs) c e
        (List.mem_append_left _ h2) hres
      cases res <;> simp [shiftDrain, ih]
  termination_by q _ _ _ _ => cbsSize q
  decreasing_by
    all_goals
      simp only [cbsSize, cbSize, cbsSize_append, List.append_eq]
      omega

theorem shiftDrain_warnErr_of_throws :
    ∀ (queue : List Callback) (c : Callback) (e : JSVal), c ∈ queue →
    c.res = CbRes.throws e →
    Event.warnErr (wrapError "Error in deferred callback" e) ∈ (shiftDrain queue).events
  | [], c, e, hc, _ => by cases hc
  | .mk j regs res :: rest, c, e, hc, hres => by
    rcases List.mem_cons.mp hc with rfl | h2
    · simp only [Callback.res] at hres
      subst hres
      simp [shiftDrain]
    · have ih := shiftDrain_warnErr_of_throws (rest ++ regs) c e
        (List.mem_append_left _ h2) hres
      cases res <;> simp [shiftDrain, ih]
  termination_by q _ _ _ _ => cbsSize q
  decreasing_by
    all_goals
      simp only [cbsSize, cbSize, cbsSize_append, List.append_eq]
      omega

/-- Membership in the invocation trace follows from membership in the
invocation sequence. -/
theorem invoke_mem_of_mem_invokeSeq {evs : List Event} {i : Nat}
    (h : i ∈ invokeSeq evs) : Event.invoke i ∈ evs := by
  rcases List.mem_filterMap.mp h with ⟨ev, hev, hmap⟩
  cases ev <;> simp_all

theorem invoke_mem_indexDrain {q : List Callback} {n : Nat}
    (h : n ∈ allIds q) : Event.invoke n ∈ (indexDrain q 0).events := by
  apply invoke_mem_of_mem_invokeSeq
  rw [indexDrain_invokeSeq q 0, List.drop_zero]
  exact ((drainOrder_perm_allIds q).mem_iff).mpr h

theorem invoke_mem_shiftDrain {q : List Callback} {n : Nat}
    (h : n ∈ allIds q) : Event.invoke n ∈ (shiftDrain q).events := by
  apply invoke_mem_of_mem_invokeSeq
  rw [shiftDrain_invokeSeq q]
  exact ((drainOrder_perm_allIds q).mem_iff).mpr h

theorem mem_safe_events {V : Type} (a : ActionSpec V) (ev : Event)
    (h : ev ∈ (indexDrain a.regs 0).events) : ev ∈ (safe a).events := by
  rcases a with ⟨regs, out⟩
  cases out <;>
    exact List.mem_append_right _ (List.mem_cons_of_mem _ h)

theorem mem_throwing_events {V : Type} (a : ActionSpec V) (ev : Event)
    (h : ev ∈ (indexDrain a.regs 0).events) : ev ∈ (throwing a).events := by
  rcases a with ⟨regs, out⟩
  cases out <;>
    exact List.mem_append_right _ (List.mem_cons_of_mem _ h)

theorem mem_handled_events {V : Type} (a : ActionSpec V) (ev : Event)
    (h : ev ∈ (indexDrain a.regs 0).events) : ev ∈ (handled a).events := by
  rcases a with ⟨regs, out⟩
  cases out <;>
    exact List.mem_append_right _ (List.mem_cons_of_mem _ (by
      first
        | exact h
        | exact List.mem_append_left _ h))

theorem mem_withDeferImpl_events {V : Type} (hasHandler : Bool) (a : ActionSpec V) (ev : Event)
    (h : ev ∈ (shiftDrain a.regs).events) : ev ∈ (withDeferImpl hasHandler a).events := by
  rcases a with ⟨regs, out⟩
  cases hasHandler <;> cases out <;>
    exact List.mem_append_right _ (List.mem_cons_of_mem _ (by
      first
        | exact h
        | exact List.mem_append_left _ h))

theorem safe_invokeSeq {V : Type} (a : ActionSpec V) :
    invokeSeq (safe a).events = drainOrder a.regs := by
  rcases a with ⟨regs, out⟩
  cases out <;> simp [safe, indexDrain_invokeSeq, List.drop_zero]

theorem throwing_invokeSeq {V : Type} (a : ActionSpec V) :
    invokeSeq (throwing a).events = drainOrder a.regs := by
  rcases a with ⟨regs, out⟩
  cases out <;> simp [throwing, indexDrain_invokeSeq, List.drop_zero]

theorem handled_invokeSeq {V : Type} (a : ActionSpec V) :
    invokeSeq (handled a).events = drainOrder a.regs := by
  rcases a with ⟨regs, out⟩
  cases out <;> simp [handled, indexDrain_invokeSeq, List.drop_zero]

theorem withDeferImpl_invokeSeq {V : Type} (hasHandler : Bool) (a : ActionSpec V) :
    invokeSeq (withDeferImpl hasHandler a).events = drainOrder a.regs := by
  rcases a with ⟨regs, out⟩
  cases hasHandler <;> cases out <;> simp [withDeferImpl, shiftDrain_invokeSeq]

theorem safe_handlerSeq {V : Type} (a : ActionSpec V) :
    handlerSeq (safe a).events = [] := by
  rcases a with ⟨regs, out⟩
  cases out <;> simp [safe, indexDrain_handlerSeq]

theorem throwing_handlerSeq {V : Type} (a : ActionSpec V) :
    handlerSeq (throwing a).events = [] := by
  rcases a with ⟨regs, out⟩
  cases out <;> simp [throwing, indexDrain_handlerSeq]

theorem withDefer_handlerSeq {V : Type} (a : ActionSpec V) :
    handlerSeq (withDefer a).events = [] := by
  rcases a with ⟨regs, out⟩
  cases out <;> simp [withDefer, withDeferImpl, shiftDrain_handlerSeq]

/-- C1: for every invocation of any engine entry point (`defer.safe`,
`defer.throwing`, `defer.handled`, `withDefer`, `withDefer.handled`), with
any action (synchronous or asynchronous) and any outcome (success,
synchronous throw, or rejected pending result), every callback registered
via the invocation's defer handle is executed after the action settles and
before the final result is delivered: the trace decomposes into the
registrations, the settle marker, and a tail containing the callback's
invocation, and a `Run`'s whole trace is emitted before its `result` is
returned, re-raised, or dispatched. -/
theorem c1_cleanup_between_settle_and_result {V : Type}
    (a : ActionSpec V) (c : Callback) (hc : c ∈ a.regs) :
    (∃ tail, (safe a).events = regEvents a ++ Event.settle :: tail ∧
      Event.invoke c.id ∈ tail) ∧
    (∃ tail, (throwing a).events = regEvents a ++ Event.settle :: tail ∧
      Event.invoke c.id ∈ tail) ∧
    (∃ tail, (handled a).events = regEvents a ++ Event.settle :: tail ∧
      Event.invoke c.id ∈ tail) ∧
    (∃ tail, (withDefer a).events = regEvents a ++ Event.settle :: tail ∧
      Event.invoke c.id ∈ tail) ∧
    (∃ tail, (withDeferHandled a).events = regEvents a ++ Event.settle :: tail ∧
      Event.invoke c.id ∈ tail) := by
  have hidx : Event.invoke c.id ∈ (indexDrain a.regs 0).events :=
    invoke_mem_indexDrain (mem_allIds_of_mem hc)
  have hshift : Event.invoke c.id ∈ (shiftDrain a.regs).events :=
    invoke_mem_shiftDrain (mem_allIds_of_mem hc)
  rcases a with ⟨regs, out⟩
  refine ⟨?_, ?_, ?_, ?_, ?_⟩ <;> cases out <;>
    exact ⟨_, rfl, by
      first
        | exact hidx
        | exact hshift
        | exact List.mem_append_left _ hidx
        | exact List.mem_append_left _ hshift⟩

theorem c1_cleanup_between_settle_and_result_witness :
    Callback.mk 7 [] CbRes.ok ∈ [Callback.mk 7 [] CbRes.ok] ∧
    ((∃ tail,
        (safe (ActionSpec.mk [Callback.mk 7 [] CbRes.ok] (ActOut.ret JSVal.null))).events =
          regEvents (ActionSpec.mk [Callback.mk 7 [] CbRes.ok] (ActOut.ret JSVal.null)) ++
            Event.settle :: tail ∧
        Event.invoke (Callback.mk 7 [] CbRes.ok).id ∈ tail) ∧
      (∃ tail,
        (throwing (ActionSpec.mk [Callback.mk 7 [] CbRes.ok] (ActOut.ret JSVal.null))).events =
          regEvents (ActionSpec.mk [Callback.mk 7 [] CbRes.ok] (ActOut.ret JSVal.null)) ++
            Event.settle :: tail ∧
        Event.invoke (Callback.mk 7 [] CbRes.ok).id ∈ tail) ∧
      (∃ tail,
        (handled (ActionSpec.mk [Callback.mk 7 [] CbRes.ok] (ActOut.ret JSVal.null))).events =
          regEvents (ActionSpec.mk [Callback.mk 7 [] CbRes.ok] (ActOut.ret JSVal.null)) ++
            Event.settle :: tail ∧
        Event.invoke (Callback.mk 7 [] CbRes.ok).id ∈ tail) ∧
      (∃ tail,
        (withDefer (ActionSpec.mk [Callback.mk 7 [] CbRes.ok] (ActOut.ret JSVal.null))).events =
          regEvents (ActionSpec.mk [Callback.mk 7 [] CbRes.ok] (ActOut.ret JSVal.null)) ++
            Event.settle :: tail ∧
        Event.invoke (Callback.mk 7 [] CbRes.ok).id ∈ tail) ∧
      (∃ tail,
        (withDeferHandled (ActionSpec.mk [Callback.mk 7 [] CbRes.ok] (ActOut.ret JSVal.null))).events =
          regEvents (ActionSpec.mk [Callback.mk 7 [] CbRes.ok] (ActOut.ret JSVal.null)) ++
            Event.settle :: tail ∧
        Event.invoke (Callback.mk 7 [] CbRes.ok).id ∈ tail)) :=
  ⟨List.mem_singleton_self _,
    c1_cleanup_between_settle_and_result
      (ActionSpec.mk [Callback.mk 7 [] CbRes.ok] (ActOut.ret JSVal.null))
      (Callback.mk 7 [] CbRes.ok) (List.mem_singleton_self _)⟩

/-- C2: callbacks registered in order C1, C2, ..., Cn through an
invocation's defer handle are invoked by the drain in exactly that order,
in every engine entry point, for every way the action settles.  The
hypothesis restricts to callbacks that do not themselves register more
callbacks, which is the situation the claim describes (drain-time
registrations are appended after the registered ones; see C10). -/
theorem c2_fifo_order {V : Type} (a : ActionSpec V)
    (hflat : ∀ c ∈ a.regs, c.regs = []) :
    invokeSeq (safe a).events = a.regs.map Callback.id ∧
    invokeSeq (throwing a).events = a.regs.map Callback.id ∧
    invokeSeq (handled a).events = a.regs.map Callback.id ∧
    invokeSeq (withDefer a).events = a.regs.map Callback.id ∧
    invokeSeq (withDeferHandled a).events = a.regs.map Callback.id := by
  have hord := drainOrder_flat a.regs hflat
  exact ⟨by rw [safe_invokeSeq, hord], by rw [throwing_invokeSeq, hord],
    by rw [handled_invokeSeq, hord],
    by rw [withDefer, withDeferImpl_invokeSeq, hord],
    by rw [withDeferHandled, withDeferImpl_invokeSeq, hord]⟩

theorem c2_fifo_order_witness :
    (∀ c ∈ [Callback.mk 1 [] CbRes.ok, Callback.mk 2 [] (CbRes.throws JSVal.null),
        Callback.mk 3 [] CbRes.ok], c.regs = ([] : List Callback)) ∧
    (invokeSeq (safe (ActionSpec.mk [Callback.mk 1 [] CbRes.ok,
        Callback.mk 2 [] (CbRes.throws JSVal.null), Callback.mk 3 [] CbRes.ok]
        (ActOut.resolve JSVal.undefined))).events = [1, 2, 3] ∧
      invokeSeq (throwing (ActionSpec.mk [Callback.mk 1 [] CbRes.ok,
        Callback.mk 2 [] (CbRes.throws JSVal.null), Callback.mk 3 [] CbRes.ok]
        (ActOut.resolve JSVal.undefined))).events = [1, 2, 3] ∧
      invokeSeq (handled (ActionSpec.mk [Callback.mk 1 [] CbRes.ok,
        Callback.mk 2 [] (CbRes.throws JSVal.null), Callback.mk 3 [] CbRes.ok]
        (ActOut.resolve JSVal.undefined))).events = [1, 2, 3] ∧
      invokeSeq (withDefer (ActionSpec.mk [Callback.mk 1 [] CbRes.ok,
        Callback.mk 2 [] (CbRes.throws JSVal.null), Callback.mk 3 [] CbRes.ok]
        (ActOut.resolve JSVal.undefined))).events = [1, 2, 3] ∧
      invokeSeq (withDeferHandled (ActionSpec.mk [Callback.mk 1 [] CbRes.ok,
        Callback.mk 2 [] (CbRes.throws JSVal.null), Callback.mk 3 [] CbRes.ok]
        (ActOut.resolve JSVal.undefined))).events = [1, 2, 3]) := by
  refine ⟨by intro c hc; simp at hc; rcases hc with rfl | rfl | rfl <;> rfl, ?_⟩
  have h := c2_fifo_order (ActionSpec.mk [Callback.mk 1 [] CbRes.ok,
    Callback.mk 2 [] (CbRes.throws JSVal.null), Callback.mk 3 [] CbRes.ok]
    (ActOut.resolve JSVal.undefined))
    (by intro c hc; simp at hc; rcases hc with rfl | rfl | rfl <;> rfl)
  simpa using h

theorem count_drainOrder_eq_one {q : List Callback} {c : Callback}
    (hnodup : (allIds q).Nodup) (hc : c ∈ q) : (drainOrder q).count c.id = 1 := by
  rw [(drainOrder_perm_allIds q).count_eq]
  exact List.count_eq_one_of_mem hnodup (mem_allIds_of_mem hc)

/-- C3: in every engine entry point, each queued callback is invoked
exactly once (its id occurs once in the invocation sequence, whatever the
other callbacks do, including throwing or rejecting); the reported outcome
— delivered result and handler calls — depends only on how the action
settled, never on the queue, so a failing callback alters nothing; and
draining never raises back to the caller: a thrown or rejected delivery
can only originate from the action's own failure. -/
theorem c3_failure_isolation {V : Type} (a : ActionSpec V)
    (hnodup : (allIds a.regs).Nodup) (c : Callback) (hc : c ∈ a.regs) :
    ((invokeSeq (safe a).events).count c.id = 1 ∧
      (invokeSeq (throwing a).events).count c.id = 1 ∧
      (invokeSeq (handled a).events).count c.id = 1 ∧
      (invokeSeq (withDefer a).events).count c.id = 1 ∧
      (invokeSeq (withDeferHandled a).events).count c.id = 1) ∧
    (∀ b : ActionSpec V, b.out = a.out →
      (safe b).result = (safe a).result ∧
      (throwing b).result = (throwing a).result ∧
      (handled b).result = (handled a).result ∧
      handlerSeq (handled b).events = handlerSeq (handled a).events ∧
      (withDefer b).result = (withDefer a).result ∧
      (withDeferHandled b).result = (withDeferHandled a).result ∧
      handlerSeq (withDeferHandled b).events = handlerSeq (withDeferHandled a).events) ∧
    ((∀ e, (safe a).result ≠ Delivery.thrown e ∧ (safe a).result ≠ Delivery.rejected e) ∧
      (∀ e, (throwing a).result = Delivery.thrown e → ∃ e0, a.out = ActOut.throw e0) ∧
      (∀ e, (throwing a).result = Delivery.rejected e → ∃ e0, a.out = ActOut.reject e0) ∧
      (∀ e, (handled a).result ≠ Delivery.thrown e ∧ (handled a).result ≠ Delivery.rejected e) ∧
      (∀ e, (withDefer a).result ≠ Delivery.thrown e ∧
        (withDefer a).result ≠ Delivery.rejected e) ∧
      (∀ e, (withDeferHandled a).result ≠ Delivery.thrown e ∧
        (withDeferHandled a).result ≠ Delivery.rejected e)) := by
  refine ⟨?_, ?_, ?_⟩
  · exact ⟨by rw [safe_invokeSeq]; exact count_drainOrder_eq_one hnodup hc,
      by rw [throwing_invokeSeq]; exact count_drainOrder_eq_one hnodup hc,
      by rw [handled_invokeSeq]; exact count_drainOrder_eq_one hnodup hc,
      by rw [withDefer, withDeferImpl_invokeSeq]; exact count_drainOrder_eq_one hnodup hc,
      by rw [withDeferHandled, withDeferImpl_invokeSeq]; exact count_drainOrder_eq_one hnodup hc⟩
  · intro b hb
    rcases a with ⟨ra, oa⟩
    rcases b with ⟨rb, ob⟩
    simp only at hb
    subst hb
    cases ob <;>
      simp [safe, throwing, handled, withDefer, withDeferHandled, withDeferImpl,
        indexDrain_handlerSeq, shiftDrain_handlerSeq]
  · rcases a with ⟨ra, oa⟩
    cases oa <;>
      simp [safe, throwing, handled, withDefer, withDeferHandled, withDeferImpl]

theorem c3_failure_isolation_witness :
    (allIds [Callback.mk 4 [] (CbRes.throws JSVal.undefined)]).Nodup ∧
    Callback.mk 4 [] (CbRes.throws JSVal.undefined) ∈
      [Callback.mk 4 [] (CbRes.throws JSVal.undefined)] ∧
    (invokeSeq (safe (ActionSpec.mk [Callback.mk 4 [] (CbRes.throws JSVal.undefined)]
      (ActOut.ret JSVal.null))).events).count 4 = 1 ∧
    (safe (ActionSpec.mk ([] : List Callback) (ActOut.ret JSVal.null))).result =
      (safe (ActionSpec.mk [Callback.mk 4 [] (CbRes.throws JSVal.undefined)]
        (ActOut.ret JSVal.null))).result ∧
    (∀ e, (safe (ActionSpec.mk [Callback.mk 4 [] (CbRes.throws JSVal.undefined)]
      (ActOut.ret JSVal.null))).result ≠ Delivery.thrown e ∧
      (safe (ActionSpec.mk [Callback.mk 4 [] (CbRes.throws JSVal.undefined)]
        (ActOut.ret JSVal.null))).result ≠ Delivery.rejected e) := by
  have h := c3_failure_isolation
    (ActionSpec.mk [Callback.mk 4 [] (CbRes.throws JSVal.undefined)] (ActOut.ret JSVal.null))
    (by simp [allIds]) (Callback.mk 4 [] (CbRes.throws JSVal.undefined))
    (List.mem_singleton_self _)
  exact ⟨by simp [allIds], List.mem_singleton_self _, h.1.1,
    (h.2.1 (ActionSpec.mk ([] : List Callback) (ActOut.ret JSVal.null)) rfl).1,
    h.2.2.1⟩

/-- C4: the value-return strategies (`defer.safe` and `withDefer`) never
raise — the delivery is never a synchronous throw or a rejected promise —
and for every action they deliver a two-slot result with exactly one slot
populated (the `JSResult`/`ValErr` sums are the discriminated
union/`[v, null]`-vs-`[null, e]` tuple, so the slots are mutually
exclusive by construction): the action's value on success, the normalized
error on failure.  `V` is arbitrary, so this covers every value shape,
including the embeddings of `null`, `undefined`, `0`, `false` and
composite objects. -/
theorem c4_value_return_strategy {V : Type} (a : ActionSpec V) :
    ((∀ e, (safe a).result ≠ Delivery.thrown e ∧ (safe a).result ≠ Delivery.rejected e) ∧
      (∀ e, (withDefer a).result ≠ Delivery.thrown e ∧
        (withDefer a).result ≠ Delivery.rejected e)) ∧
    (∀ v, a.out = ActOut.ret v → (safe a).result = Delivery.value (JSResult.val v) ∧
      (withDefer a).result = Delivery.value (some (ValErr.val v))) ∧
    (∀ v, a.out = ActOut.resolve v → (safe a).result = Delivery.fulfilled (JSResult.val v) ∧
      (withDefer a).result = Delivery.fulfilled (some (ValErr.val v))) ∧
    (∀ e, a.out = ActOut.throw e →
      (safe a).result = Delivery.value (JSResult.err (ensureError e)) ∧
      (withDefer a).result = Delivery.value (some (ValErr.err (handleUnknown e)))) ∧
    (∀ e, a.out = ActOut.reject e →
      (safe a).result = Delivery.fulfilled (JSResult.err (ensureError e)) ∧
      (withDefer a).result = Delivery.fulfilled (some (ValErr.err (handleUnknown e)))) := by
  rcases a with ⟨regs, out⟩
  cases out <;>
    simp [safe, withDefer, withDeferImpl]

theorem c4_value_return_strategy_witness :
    (ActionSpec.mk ([] : List Callback) (ActOut.ret JSVal.undefined)).out =
      ActOut.ret JSVal.undefined ∧
    (safe (ActionSpec.mk ([] : List Callback) (ActOut.ret JSVal.undefined))).result =
      Delivery.value (JSResult.val JSVal.undefined) ∧
    (withDefer (ActionSpec.mk ([] : List Callback) (ActOut.ret JSVal.undefined))).result =
      Delivery.value (some (ValErr.val JSVal.undefined)) :=
  ⟨rfl, (c4_value_return_strategy
      (ActionSpec.mk ([] : List Callback) (ActOut.ret JSVal.undefined))).2.1
      JSVal.undefined rfl⟩

/-- C5: the re-raise strategy (`defer.throwing`) returns the action's
success value unchanged — the same `v : V` for an arbitrary type `V`, the
embedding's rendering of reference identity — and on failure raises the
normalized error to the caller, with the whole cleanup trace emitted
before the error propagates (the thrown/rejected delivery comes after the
trace ending in the drain's events). -/
theorem c5_reraise_strategy {V : Type} (a : ActionSpec V) :
    (∀ v, a.out = ActOut.ret v → (throwing a).result = Delivery.value v) ∧
    (∀ v, a.out = ActOut.resolve v → (throwing a).result = Delivery.fulfilled v) ∧
    (∀ e, a.out = ActOut.throw e → (throwing a).result = Delivery.thrown (ensureError e) ∧
      (throwing a).events = regEvents a ++ Event.settle :: (indexDrain a.regs 0).events) ∧
    (∀ e, a.out = ActOut.reject e → (throwing a).result = Delivery.rejected (ensureError e) ∧
      (throwing a).events = regEvents a ++ Event.settle :: (indexDrain a.regs 0).events) := by
  rcases a with ⟨regs, out⟩
  cases out <;> simp [throwing]

theorem c5_reraise_strategy_witness :
    (ActionSpec.mk ([] : List Callback) ((ActOut.throw (JSVal.str "boom")) : ActOut JSVal)).out =
      ActOut.throw (JSVal.str "boom") ∧
    (throwing (ActionSpec.mk ([] : List Callback)
      ((ActOut.throw (JSVal.str "boom")) : ActOut JSVal))).result =
      Delivery.thrown (ensureError (JSVal.str "boom")) ∧
    (throwing (ActionSpec.mk ([] : List Callback)
      ((ActOut.throw (JSVal.str "boom")) : ActOut JSVal))).events =
      regEvents (ActionSpec.mk ([] : List Callback) ((ActOut.throw (JSVal.str "boom")) : ActOut JSVal)) ++
        Event.settle ::
          (indexDrain (ActionSpec.mk ([] : List Callback)
            ((ActOut.throw (JSVal.str "boom")) : ActOut JSVal)).regs 0).events :=
  ⟨rfl, (c5_reraise_strategy (ActionSpec.mk ([] : List Callback)
    ((ActOut.throw (JSVal.str "boom")) : ActOut JSVal))).2.2.1 (JSVal.str "boom") rfl⟩

/-- C6: the callback-dispatch strategies (`defer.handled` and
`withDefer.handled`): on failure (synchronous throw or rejected pending
result) the caller-supplied handler is invoked exactly once with the
normalized error, on success it is invoked zero times, the success value
is discarded, and nothing is returned either way (the delivery carries
`()`/`none`), for synchronous and asynchronous actions alike. -/
theorem c6_dispatch_strategy {V : Type} (a : ActionSpec V) :
    (∀ v, a.out = ActOut.ret v → handlerSeq (handled a).events = [] ∧
      (handled a).result = Delivery.value () ∧
      handlerSeq (withDeferHandled a).events = [] ∧
      (withDeferHandled a).result = Delivery.value none) ∧
    (∀ v, a.out = ActOut.resolve v → handlerSeq (handled a).events = [] ∧
      (handled a).result = Delivery.fulfilled () ∧
      handlerSeq (withDeferHandled a).events = [] ∧
      (withDeferHandled a).result = Delivery.fulfilled none) ∧
    (∀ e, a.out = ActOut.throw e →
      handlerSeq (handled a).events = [ensureError e] ∧
      (handled a).result = Delivery.value () ∧
      handlerSeq (withDeferHandled a).events = [handleUnknown e] ∧
      (withDeferHandled a).result = Delivery.value none) ∧
    (∀ e, a.out = ActOut.reject e →
      handlerSeq (handled a).events = [ensureError e] ∧
      (handled a).result = Delivery.fulfilled () ∧
      handlerSeq (withDeferHandled a).events = [handleUnknown e] ∧
      (withDeferHandled a).result = Delivery.fulfilled none) := by
  rcases a with ⟨regs, out⟩
  cases out <;>
    simp [handled, withDeferHandled, withDeferImpl,
      indexDrain_handlerSeq, shiftDrain_handlerSeq]

theorem c6_dispatch_strategy_witness :
    (ActionSpec.mk [Callback.mk 2 [] CbRes.ok] (ActOut.reject JSVal.null : ActOut JSVal)).out =
      ActOut.reject JSVal.null ∧
    handlerSeq (handled (ActionSpec.mk [Callback.mk 2 [] CbRes.ok]
      (ActOut.reject JSVal.null : ActOut JSVal))).events = [ensureError JSVal.null] ∧
    (handled (ActionSpec.mk [Callback.mk 2 [] CbRes.ok]
      (ActOut.reject JSVal.null : ActOut JSVal))).result = Delivery.fulfilled () ∧
    handlerSeq (withDeferHandled (ActionSpec.mk [Callback.mk 2 [] CbRes.ok]
      (ActOut.reject JSVal.null : ActOut JSVal))).events = [handleUnknown JSVal.null] ∧
    (withDeferHandled (ActionSpec.mk [Callback.mk 2 [] CbRes.ok]
      (ActOut.reject JSVal.null : ActOut JSVal))).result = Delivery.fulfilled none :=
  ⟨rfl, (c6_dispatch_strategy (ActionSpec.mk [Callback.mk 2 [] CbRes.ok]
    (ActOut.reject JSVal.null : ActOut JSVal))).2.2.2 JSVal.null rfl⟩

/-- C7 counterexample: the index-based drain of `src/defer.ts` never
removes a callback from the queue.  Draining the one-callback queue
invokes the callback, yet the queue still holds it afterwards,
contradicting "synchronously removes each callback from the queue before
invoking it" for this drain. -/
theorem c7_counterexample :
    Event.invoke 0 ∈ (indexDrain [Callback.mk 0 [] CbRes.ok] 0).events ∧
    (indexDrain [Callback.mk 0 [] CbRes.ok] 0).finalQueue =
      [Callback.mk 0 [] CbRes.ok] := by
  constructor <;> simp [indexDrain]

/-- C7 amended: both drains process callbacks strictly in insertion order
(drain-time registrations appended at the back) and invoke each callback
instance exactly once — the invocation sequence is a permutation of all
queued instances.  The shift-based drain of `src/with-defer.ts` removes
each callback from the queue before invoking it and finishes with an empty
queue; the index-based drain of `src/defer.ts` instead advances an index
and removes nothing, so the drained callbacks all remain in the queue. -/
theorem c7_amended_drain_discipline (queue : List Callback) :
    invokeSeq (indexDrain queue 0).events = drainOrder queue ∧
    invokeSeq (shiftDrain queue).events = drainOrder queue ∧
    (drainOrder queue).Perm (allIds queue) ∧
    (shiftDrain queue).finalQueue = [] ∧
    (∃ ext, (indexDrain queue 0).finalQueue = queue ++ ext) := by
  refine ⟨?_, shiftDrain_invokeSeq queue, drainOrder_perm_allIds queue,
    shiftDrain_finalQueue queue, indexDrain_finalQueue_extends queue 0⟩
  rw [indexDrain_invokeSeq queue 0, List.drop_zero]

theorem indexDrain_unhandled_of_pendingFail :
    ∀ (queue : List Callback) (i : Nat) (c : Callback) (e : JSVal),
    c ∈ queue.drop i → c.res = CbRes.pendingFail e → e ∈ (indexDrain queue i).unhandled
  | queue, i, c, e => by
    intro hc hres
    by_cases h : i < queue.length
    · rw [indexDrain]
      rw [List.drop_eq_getElem_cons h] at hc
      cases hq : queue[i] with
      | mk j regs res =>
        rw [hq] at hc
        simp only [dif_pos h, hq, Callback.id_mk, Callback.regs_mk, Callback.res_mk]
        rcases List.mem_cons.mp hc with hceq | h2
        · rw [hceq] at hres
          simp only [Callback.res_mk] at hres
          subst hres
          simp
        · have hmem : c ∈ (queue ++ regs).drop (i + 1) := by
            rw [List.drop_append_of_le_length (by omega)]
            exact List.mem_append_left _ h2
          have ih := indexDrain_unhandled_of_pendingFail (queue ++ regs) (i + 1) c e hmem hres
          cases res <;> simp [ih]
    · rw [List.drop_eq_nil_of_le (by omega)] at hc
      cases hc
  termination_by queue i _ _ => cbsSize (queue.drop i)
  decreasing_by
    rw [List.drop_append_of_le_length (by omega),
      List.drop_eq_getElem_cons h, cbsSize_append, hq]
    simp only [cbsSize, cbSize, Callback.regs_mk]
    omega

/-- C8 counterexample: in the `defer.safe` entry point of `src/defer.ts`
(and identically in `defer.throwing` / `defer.handled`, which share
`executeDefers`), a cleanup callback that returns a later-rejecting pending
result produces no diagnostic at all: the trace contains no warn event, no
failure continuation is attached (`asyncWarns` is empty), and the rejection
is left as an unobserved (unhandled) rejection — contradicting the claim
that the distinguishing diagnostic is emitted in every engine entry
point. -/
theorem c8_counterexample :
    (safe (ActionSpec.mk [Callback.mk 0 [] (CbRes.pendingFail (JSVal.str "x"))]
      (ActOut.ret JSVal.null))).events =
      [Event.register 0, Event.settle, Event.invoke 0] ∧
    (safe (ActionSpec.mk [Callback.mk 0 [] (CbRes.pendingFail (JSVal.str "x"))]
      (ActOut.ret JSVal.null))).asyncWarns = [] ∧
    (safe (ActionSpec.mk [Callback.mk 0 [] (CbRes.pendingFail (JSVal.str "x"))]
      (ActOut.ret JSVal.null))).unhandled = [JSVal.str "x"] := by
  refine ⟨?_, ?_, ?_⟩ <;> simp [safe, regEvents, indexDrain]

/-- C8 amended: only the shift-based implementation (`withDefer` and
`withDefer.handled` in `src/with-defer.ts`) attaches a failure
continuation to a pending cleanup result; if that result fails, a
non-fatal diagnostic prefixed "Error in async deferred callback" —
distinct from the synchronous prefix "Error in deferred callback" — is
emitted, and the draining of subsequent callbacks proceeds unaffected
(the full invocation sequence is produced without waiting).  The
index-based implementation (`defer.safe`, `defer.throwing`,
`defer.handled` in `src/defer.ts`) ignores pending cleanup results
entirely: no diagnostic is attached and the failure is left as an
unhandled rejection. -/
theorem c8_amended_async_cleanup_diagnostics (q : List Callback) (c : Callback)
    (e : JSVal) (hc : c ∈ q) (hres : c.res = CbRes.pendingFail e) :
    wrapError "Error in async deferred callback" e ∈ (shiftDrain q).asyncWarns ∧
    invokeSeq (shiftDrain q).events = drainOrder q ∧
    wrapError "Error in async deferred callback" e ≠
      wrapError "Error in deferred callback" e ∧
    (indexDrain q 0).asyncWarns = [] ∧
    invokeSeq (indexDrain q 0).events = drainOrder q ∧
    e ∈ (indexDrain q 0).unhandled := by
  refine ⟨shiftDrain_asyncWarn_of_pendingFail q c e hc hres,
    shiftDrain_invokeSeq q, ?_, indexDrain_asyncWarns q 0, ?_,
    indexDrain_unhandled_of_pendingFail q 0 c e (by simpa using hc) hres⟩
  · intro hcontra
    rw [wrapError, wrapError] at hcontra
    have := (JSVal.error.injEq _ _ _ _).mp hcontra
    simp at this
  · rw [indexDrain_invokeSeq q 0, List.drop_zero]

theorem c8_amended_async_cleanup_diagnostics_witness :
    Callback.mk 5 [] (CbRes.pendingFail (JSVal.str "x")) ∈
      [Callback.mk 5 [] (CbRes.pendingFail (JSVal.str "x"))] ∧
    (Callback.mk 5 [] (CbRes.pendingFail (JSVal.str "x"))).res =
      CbRes.pendingFail (JSVal.str "x") ∧
    (wrapError "Error in async deferred callback" (JSVal.str "x") ∈
      (shiftDrain [Callback.mk 5 [] (CbRes.pendingFail (JSVal.str "x"))]).asyncWarns ∧
     invokeSeq (shiftDrain [Callback.mk 5 [] (CbRes.pendingFail (JSVal.str "x"))]).events =
       drainOrder [Callback.mk 5 [] (CbRes.pendingFail (JSVal.str "x"))] ∧
     wrapError "Error in async deferred callback" (JSVal.str "x") ≠
       wrapError "Error in deferred callback" (JSVal.str "x") ∧
     (indexDrain [Callback.mk 5 [] (CbRes.pendingFail (JSVal.str "x"))] 0).asyncWarns = [] ∧
     invokeSeq (indexDrain [Callback.mk 5 [] (CbRes.pendingFail (JSVal.str "x"))] 0).events =
       drainOrder [Callback.mk 5 [] (CbRes.pendingFail (JSVal.str "x"))] ∧
     JSVal.str "x" ∈
       (indexDrain [Callback.mk 5 [] (CbRes.pendingFail (JSVal.str "x"))] 0).unhandled) :=
  ⟨List.mem_singleton_self _, rfl,
    c8_amended_async_cleanup_diagnostics
      [Callback.mk 5 [] (CbRes.pendingFail (JSVal.str "x"))]
      (Callback.mk 5 [] (CbRes.pendingFail (JSVal.str "x")))
      (JSVal.str "x") (List.mem_singleton_self _) rfl⟩

/-- C9: the normalizer `ensureError` of `src/utils.ts` is total and always
yields a genuine `Error` object; an input that already is an `Error` is
returned unchanged (the very same value); any other input is wrapped in a
new `Error` with a descriptive message and the original value retained as
its `cause`; and a circular object — on which `JSON.stringify` throws,
modelled by `jsonStringify` returning `none` — falls back to the safe
`String(e)` rendering `"[object Object]"` instead of failing.  Totality is
by construction: `ensureError` is a total function precisely because the
one failure point, serialization, is confined to the `Option`-valued
`jsonStringify` whose `none` case it handles. -/
theorem c9_normalizer_total (e : JSVal) :
    isErrorObj (ensureError e) = true ∧
    (isErrorObj e = true → ensureError e = e) ∧
    (isErrorObj e = false →
      ∃ s, ensureError e =
        JSVal.error ("Non-Error object was thrown: " ++ s) (some e)) ∧
    ensureError JSVal.objCircular =
      JSVal.error ("Non-Error object was thrown: [object Object]")
        (some JSVal.objCircular) := by
  refine ⟨?_, ?_, ?_, ?_⟩
  · cases e <;> simp [ensureError, isErrorObj]
  · intro h
    cases e <;> simp_all [ensureError, isErrorObj]
  · intro h
    cases e <;> try exact ⟨_, rfl⟩
    simp [isErrorObj] at h
  · rfl

theorem c9_normalizer_total_witness :
    isErrorObj (JSVal.num 3) = false ∧
    isErrorObj (ensureError (JSVal.num 3)) = true ∧
    (∃ s, ensureError (JSVal.num 3) =
      JSVal.error ("Non-Error object was thrown: " ++ s) (some (JSVal.num 3))) :=
  ⟨rfl, (c9_normalizer_total (JSVal.num 3)).1,
    (c9_normalizer_total (JSVal.num 3)).2.2.1 rfl⟩

/-- C10: a callback that the drain is currently executing can register a
further callback through the same invocation's defer handle, and that
newly registered callback is itself executed before the drain finishes —
in the index-based drain (which re-reads the queue length each iteration)
and the shift-based drain (which runs until the queue is empty) alike, and
hence in every engine entry point. -/
theorem c10_registration_during_drain {V : Type} (a : ActionSpec V)
    (c d : Callback) (hc : c ∈ a.regs) (hd : d ∈ c.regs) :
    Event.invoke d.id ∈ (indexDrain a.regs 0).events ∧
    Event.invoke d.id ∈ (shiftDrain a.regs).events ∧
    Event.invoke d.id ∈ (safe a).events ∧
    Event.invoke d.id ∈ (throwing a).events ∧
    Event.invoke d.id ∈ (handled a).events ∧
    Event.invoke d.id ∈ (withDefer a).events ∧
    Event.invoke d.id ∈ (withDeferHandled a).events := by
  have hall : d.id ∈ allIds a.regs := mem_allIds_of_mem_regs hc hd
  have hidx := invoke_mem_indexDrain hall
  have hshift := invoke_mem_shiftDrain hall
  exact ⟨hidx, hshift, mem_safe_events a _ hidx, mem_throwing_events a _ hidx,
    mem_handled_events a _ hidx, mem_withDeferImpl_events false a _ hshift,
    mem_withDeferImpl_events true a _ hshift⟩

theorem c10_registration_during_drain_witness :
    Callback.mk 0 [Callback.mk 1 [] CbRes.ok] CbRes.ok ∈
      [Callback.mk 0 [Callback.mk 1 [] CbRes.ok] CbRes.ok] ∧
    Callback.mk 1 [] CbRes.ok ∈
      (Callback.mk 0 [Callback.mk 1 [] CbRes.ok] CbRes.ok).regs ∧
    (Event.invoke 1 ∈
      (indexDrain [Callback.mk 0 [Callback.mk 1 [] CbRes.ok] CbRes.ok] 0).events ∧
     Event.invoke 1 ∈
      (shiftDrain [Callback.mk 0 [Callback.mk 1 [] CbRes.ok] CbRes.ok]).events ∧
     Event.invoke 1 ∈
      (safe (ActionSpec.mk [Callback.mk 0 [Callback.mk 1 [] CbRes.ok] CbRes.ok]
        (ActOut.ret JSVal.null))).events ∧
     Event.invoke 1 ∈
      (throwing (ActionSpec.mk [Callback.mk 0 [Callback.mk 1 [] CbRes.ok] CbRes.ok]
        (ActOut.ret JSVal.null))).events ∧
     Event.invoke 1 ∈
      (handled (ActionSpec.mk [Callback.mk 0 [Callback.mk 1 [] CbRes.ok] CbRes.ok]
        (ActOut.ret JSVal.null))).events ∧
     Event.invoke 1 ∈
      (withDefer (ActionSpec.mk [Callback.mk 0 [Callback.mk 1 [] CbRes.ok] CbRes.ok]
        (ActOut.ret JSVal.null))).events ∧
     Event.invoke 1 ∈
      (withDeferHandled (ActionSpec.mk [Callback.mk 0 [Callback.mk 1 [] CbRes.ok] CbRes.ok]
        (ActOut.ret JSVal.null))).events) :=
  ⟨List.mem_singleton_self _, List.mem_singleton_self _,
    c10_registration_during_drain
      (ActionSpec.mk [Callback.mk 0 [Callback.mk 1 [] CbRes.ok] CbRes.ok]
        (ActOut.ret JSVal.null))
      (Callback.mk 0 [Callback.mk 1 [] CbRes.ok] CbRes.ok)
      (Callback.mk 1 [] CbRes.ok)
      (List.mem_singleton_self _) (List.mem_singleton_self _)⟩

end ErrGo
